import Mathlib

/-!
Shallow embedding of the shiritori game engine (src/game.py).

Python strings are modelled as lists of Unicode code points (List ℕ);
ord and chr are then the identity.  Relevant code points:
  ぁ U+3041, さ U+3055, す U+3059, る U+308B, ん U+3093,
  ゃ U+3083, や U+3084, ゅ U+3085, ゆ U+3086, ょ U+3087, よ U+3088,
  ゟ U+309F, ゠ U+30A0, ァ U+30A1, ス U+30B9, サ U+30B5, ル U+30EB,
  ン U+30F3, ヿ U+30FF.
-/

namespace Shiritori

/-- Embeds is_hiragana: every character lies in the hiragana block
from HIRAGANA LETTER SMALL A (U+3041) to HIRAGANA DIGRAPH YORI (U+309F). -/
def is_hiragana (text : List ℕ) : Bool :=
  text.all (fun c => decide (0x3041 ≤ c) && decide (c ≤ 0x309F))

/-- Embeds is_katakana: every character lies in the katakana block
from KATAKANA-HIRAGANA DOUBLE HYPHEN (U+30A0) to KATAKANA DIGRAPH KOTO (U+30FF). -/
def is_katakana (text : List ℕ) : Bool :=
  text.all (fun c => decide (0x30A0 ≤ c) && decide (c ≤ 0x30FF))

/-- The per-character expression inside the katakana_to_hiragana generator:
if the character is katakana (per is_katakana on the one-character string)
and at most KATAKANA LETTER N (U+30F3), shift it by
ord(ぁ) + ord(c) - ord(ァ); otherwise leave it unchanged. -/
def kataToHiraChar (c : ℕ) : ℕ :=
  if is_katakana [c] && decide (c ≤ 0x30F3) then 0x3041 + c - 0x30A1 else c

/-- Embeds katakana_to_hiragana: the characterwise map joined back together. -/
def katakana_to_hiragana (text : List ℕ) : List ℕ :=
  text.map kataToHiraChar

/-- Embeds the GameWord namedtuple: fields kanji, kana, rank, is_noun.
Equality is componentwise, as for Python tuples. -/
structure GameWord where
  kanji : List ℕ
  kana : List ℕ
  rank : ℤ
  is_noun : Bool
deriving DecidableEq, Repr

/-- The failures an engine call can produce.  invalidContinuity, alreadySeen,
notNoun, endsWithN and noCandidate are the distinct raise sites of
InvalidWordException; unknownWord is UnknownWordException; indexError and
keyError model the untyped IndexError / KeyError a Python sequence or dict
access raises out of range. -/
inductive GameError where
  | invalidContinuity
  | unknownWord
  | alreadySeen
  | notNoun
  | endsWithN
  | noCandidate
  | indexError
  | keyError
deriving DecidableEq, Repr

/-- Which errors are instances of InvalidWordException in the source. -/
def isInvalidWordException : GameError → Bool
  | .invalidContinuity | .alreadySeen | .notNoun | .endsWithN | .noCandidate => true
  | _ => false

/-- Which errors are instances of UnknownWordException in the source. -/
def isUnknownWordException : GameError → Bool
  | .unknownWord => true
  | _ => false

/-- Embeds Game.small_to_big applied through str.translate to a single
character: ゃ/ゅ/ょ become や/ゆ/よ, everything else is unchanged. -/
def translateSmallToBig (c : ℕ) : ℕ :=
  if c = 0x3083 then 0x3084
  else if c = 0x3085 then 0x3086
  else if c = 0x3087 then 0x3088
  else c

/-- Embeds Python str.startswith for list-of-codepoint strings:
strStartsWith text pre is text.startswith(pre). -/
def strStartsWith : List ℕ → List ℕ → Bool
  | _, [] => true
  | [], _ :: _ => false
  | c :: cs, p :: ps => decide (c = p) && strStartsWith cs ps

/-- Embeds Python str.endswith for list-of-codepoint strings. -/
def strEndsWith (text suf : List ℕ) : Bool :=
  strStartsWith text.reverse suf.reverse

/-- A Python dict from normalized kana to GameWord, as an insertion-ordered
association list with unique keys. -/
abbrev Dict := List (List ℕ × GameWord)

/-- Python dict lookup: the value stored at the (unique) matching key. -/
def dictLookup (d : Dict) (k : List ℕ) : Option GameWord :=
  (d.find? (fun p => decide (p.1 = k))).map Prod.snd

/-- Python dict assignment d[k] = v: overwrite in place if the key exists
(keeping its position), otherwise append at the end. -/
def dictInsert (d : Dict) (k : List ℕ) (v : GameWord) : Dict :=
  if d.any (fun p => decide (p.1 = k)) then
    d.map (fun p => if p.1 = k then (k, v) else p)
  else
    d ++ [(k, v)]

/-- Embeds the known_words dict comprehension in Game.__init__:
insert katakana_to_hiragana(w.kana) -> w for every word with rank <= mr,
in list order, last write winning on duplicate keys. -/
def buildIndex (words : List GameWord) (mr : ℤ) : Dict :=
  words.foldl
    (fun d w => if w.rank ≤ mr then dictInsert d (katakana_to_hiragana w.kana) w else d)
    []

/-- Embeds max(words, key=rank).rank for a nonempty list (0 for the empty
list, which the constructor rejects before reaching this point). -/
def maxRankOf : List GameWord → ℤ
  | [] => 0
  | w :: ws => ws.foldl (fun m x => max m x.rank) w.rank

/-- Resolution of the optional max_rank argument of Game.__init__. -/
def resolveMaxRank (words : List GameWord) (mr : Option ℤ) : ℤ :=
  mr.getD (maxRankOf words)

instance : DecidableEq (Except GameError GameWord) := fun
  | .ok a, .ok b =>
    if h : a = b then isTrue (by rw [h]) else isFalse (by simp [h])
  | .ok _, .error _ => isFalse (by simp)
  | .error _, .ok _ => isFalse (by simp)
  | .error a, .error b =>
    if h : a = b then isTrue (by rw [h]) else isFalse (by simp [h])

/-- The mutable state of a Game instance: the vocabulary index (fixed after
construction), the played chain seen_words, and player_score. -/
structure GameState where
  known_words : Dict
  seen_words : List GameWord
  player_score : ℕ
deriving DecidableEq

/-- The mora the next word must start with: the last character of the last
played word's kana, folded through small_to_big.  none models the IndexError
paths (empty chain or empty kana). -/
def requiredMora (st : GameState) : Option ℕ :=
  match st.seen_words.getLast? with
  | none => none
  | some prev =>
    match prev.kana.getLast? with
    | none => none
    | some c => some (translateSmallToBig c)

/-- Embeds Game._validate on the already-normalized text t.  Returns none
when validation passes and some error otherwise, checking in source order:
continuity, known word, repeat, noun, terminal ん. -/
def validate (st : GameState) (t : List ℕ) : Option GameError :=
  match requiredMora st with
  | none => some .indexError
  | some mora =>
    match t.head? with
    | none => some .indexError
    | some c =>
      if c ≠ mora then some .invalidContinuity
      else
        match dictLookup st.known_words t with
        | none => some .unknownWord
        | some w =>
          if w ∈ st.seen_words then some .alreadySeen
          else if w.is_noun = false then some .notNoun
          else if strEndsWith t [0x3093] then some .endsWithN
          else none

/-- Embeds Game.send_word: normalize the text, validate it, and on success
look the word up, bump the score and append to the chain.  The state is
returned unchanged on failure. -/
def send_word (st : GameState) (text : List ℕ) :
    Except GameError GameWord × GameState :=
  match validate st (katakana_to_hiragana text) with
  | some e => (.error e, st)
  | none =>
    match dictLookup st.known_words (katakana_to_hiragana text) with
    | none => (.error .keyError, st)
    | some w =>
      (.ok w, ⟨st.known_words, st.seen_words ++ [w], st.player_score + 1⟩)

/-- Embeds the candidate filter of the generator in Game.next_word:
kana starts with the mora, the word is not already seen, is a noun,
and its kana does not end with ん. -/
def candidatePred (st : GameState) (mora : ℕ) (w : GameWord) : Bool :=
  strStartsWith w.kana [mora] && !(decide (w ∈ st.seen_words)) &&
    w.is_noun && !(strEndsWith w.kana [0x3093])

/-- Embeds itertools.islice(gen, n) over a filtering generator: the first
n elements of the list satisfying p, scanning left to right. -/
def takeFiltered (p : α → Bool) : ℕ → List α → List α
  | _, [] => []
  | 0, _ :: _ => []
  | n + 1, x :: xs =>
    if p x then x :: takeFiltered p n xs else takeFiltered p (n + 1) xs

/-- The candidate list of Game.next_word: the first 10 values of the
vocabulary dict, in dict order, passing candidatePred. -/
def nextCandidates (st : GameState) (mora : ℕ) : List GameWord :=
  takeFiltered (candidatePred st mora) 10 (st.known_words.map Prod.snd)

/-- Embeds Game.next_word.  random.choice over the nonempty candidate list
is modelled by the free parameter pick, reduced modulo the number of
candidates; every candidate is selected by some pick, and when the list is
empty the lookup fails, giving the noCandidate failure. -/
def next_word (pick : ℕ) (st : GameState) :
    Except GameError GameWord × GameState :=
  if st.seen_words.length = 1 then
    match st.seen_words.head? with
    | some w => (.ok w, st)
    | none => (.error .indexError, st)
  else
    match requiredMora st with
    | none => (.error .indexError, st)
    | some mora =>
      match (nextCandidates st mora)[pick % (nextCandidates st mora).length]? with
      | some w => (.ok w, ⟨st.known_words, st.seen_words ++ [w], st.player_score⟩)
      | none => (.error .noCandidate, st)

/-- One iteration of the initial-word selection loop in Game.__init__ when
the sampler picks raw index i into the key list: some outcome when the loop
stops (a qualifying word, or an IndexError from random.choice on an empty
key list or from kana[-1] on an empty kana), none when it loops again.
The is_noun test short-circuits before kana[-1], as in the source. -/
def initStep (kw : Dict) (i : ℕ) : Option (Except GameError GameWord) :=
  match (kw.map Prod.fst)[i % (kw.map Prod.fst).length]? with
  | none => some (.error .indexError)
  | some k =>
    match dictLookup kw k with
    | none => some (.error .keyError)
    | some w =>
      if w.is_noun then
        match w.kana.getLast? with
        | none => some (.error .indexError)
        | some c => if c ≠ 0x3093 then some (.ok w) else none
      else none

/-- The initial-word selection loop run for a bounded number of iterations,
with the sampling oracle s giving the raw choice at each iteration. -/
def initLoop (kw : Dict) (s : ℕ → ℕ) : ℕ → ℕ → Option (Except GameError GameWord)
  | _, 0 => none
  | i, fuel + 1 =>
    match initStep kw (s i) with
    | some r => some r
    | none => initLoop kw s (i + 1) fuel

/-- The while-True loop of Game.__init__ terminates for sampling oracle s. -/
def initLoopHalts (kw : Dict) (s : ℕ → ℕ) : Prop :=
  ∃ fuel, (initLoop kw s 0 fuel).isSome

/-- The engine states reachable from a completed construction by successful
send_word and next_word calls.  The init case records exactly what the
selection loop guarantees about the initial word: it is the value stored at
some key of the built index, is a noun, and its kana ends in a character
that is not ん. -/
inductive Reachable : GameState → Prop where
  | init (words : List GameWord) (mr : ℤ) (k : List ℕ) (w : GameWord)
      (hk : dictLookup (buildIndex words mr) k = some w)
      (hnoun : w.is_noun = true)
      (hlast : ∃ c, w.kana.getLast? = some c ∧ c ≠ 0x3093) :
      Reachable ⟨buildIndex words mr, [w], 0⟩
  | sendStep (st : GameState) (text : List ℕ) (w : GameWord) (st' : GameState)
      (h : Reachable st) (hs : send_word st text = (.ok w, st')) :
      Reachable st'
  | nextStep (st : GameState) (pick : ℕ) (w : GameWord) (st' : GameState)
      (h : Reachable st) (hn : next_word pick st = (.ok w, st')) :
      Reachable st'

/-- Strips a call result to the error it raised, if any. -/
def errOf : Except GameError GameWord → Option GameError
  | .error e => some e
  | .ok _ => none

/-! Spec-side definitions, written from the specification text, to be
compared with the embedded code. -/

/-- Spec rule 4.4.a, as an independent predicate: the first character of the
normalized text fails to equal the required starting unit. -/
def continuityViol (st : GameState) (t : List ℕ) : Bool :=
  decide (t.head? ≠ requiredMora st)

/-- Spec rule 4.4.b, as an independent predicate: the normalized text is not
a key of the vocabulary index. -/
def knownViol (st : GameState) (t : List ℕ) : Bool :=
  decide (dictLookup st.known_words t = none)

/-- Spec rule 4.4.c, as an independent predicate: the resolved word already
appears in the played chain. -/
def repeatViol (st : GameState) (t : List ℕ) : Bool :=
  match dictLookup st.known_words t with
  | some w => decide (w ∈ st.seen_words)
  | none => false

/-- Spec rule 4.4.d, as an independent predicate: the resolved word is not
a noun. -/
def posViol (st : GameState) (t : List ℕ) : Bool :=
  match dictLookup st.known_words t with
  | some w => !w.is_noun
  | none => false

/-- Spec rule 4.4.e, as an independent predicate: the normalized text ends
in the forbidden terminal unit ん. -/
def terminalViol (t : List ℕ) : Bool :=
  decide (t.getLast? = some 0x3093)

/-- The error the spec prescribes for a submission: the error of the first
rule, in spec order, that the normalized text violates; none when no rule
is violated. -/
def specFirstViolation (st : GameState) (t : List ℕ) : Option GameError :=
  if continuityViol st t then some .invalidContinuity
  else if knownViol st t then some .unknownWord
  else if repeatViol st t then some .alreadySeen
  else if posViol st t then some .notNoun
  else if terminalViol t then some .endsWithN
  else none

/-- The candidate condition of spec 4.3, written from its text: phonetic
form starts with the required unit, not already in the chain, a noun, and
not ending in the forbidden terminal unit. -/
def specCandidatePred (st : GameState) (m : ℕ) (w : GameWord) : Bool :=
  decide (w.kana.head? = some m) && decide (w ∉ st.seen_words) &&
    w.is_noun && decide (w.kana.getLast? ≠ some 0x3093)

/-- The continuity relation of the chain invariant in spec 8: the first
character of the phonetic form of curr equals the small-form-folded last
character of the phonetic form of prev. -/
def adjacentOK (prev curr : GameWord) : Prop :=
  curr.kana.head? = (prev.kana.getLast?).map translateSmallToBig

instance (prev curr : GameWord) : Decidable (adjacentOK prev curr) :=
  inferInstanceAs
    (Decidable (curr.kana.head? = (prev.kana.getLast?).map translateSmallToBig))

/-- The bounded candidate sample of spec 4.3, written from its text: the
first 10 vocabulary entries, in index order, meeting specCandidatePred. -/
def specCandidates (st : GameState) (m : ℕ) : List GameWord :=
  ((st.known_words.map Prod.snd).filter (specCandidatePred st m)).take 10

/-- Modelled from the spec: the phonetically analogous a-through-n subset
of the katakana block, KATAKANA LETTER SMALL A (U+30A1) through KATAKANA
LETTER N (U+30F3). -/
def aThroughN (c : ℕ) : Prop :=
  0x30A1 ≤ c ∧ c ≤ 0x30F3

/-- Every key of the index is the normalized kana of its stored word,
as the construction of known_words guarantees. -/
def IndexWF (kw : Dict) : Prop :=
  ∀ k w, (k, w) ∈ kw → k = katakana_to_hiragana w.kana

/-- Every stored word has a phonetic form that normalization leaves
unchanged, i.e. the vocabulary is already in the primary syllabary. -/
def HiraVocab (kw : Dict) : Prop :=
  ∀ p ∈ kw, katakana_to_hiragana p.2.kana = p.2.kana

instance (kw : Dict) : Decidable (HiraVocab kw) :=
  inferInstanceAs (Decidable (∀ p ∈ kw, katakana_to_hiragana p.2.kana = p.2.kana))

/-! Concrete words and states used by witnesses and counterexamples. -/

/-- The word さる (kana さ U+3055, る U+308B), a rank-1 noun. -/
def saru : GameWord := ⟨[], [0x3055, 0x308B], 1, true⟩

/-- The word るす in hiragana (る U+308B, す U+3059), a rank-1 noun. -/
def rusu : GameWord := ⟨[], [0x308B, 0x3059], 1, true⟩

/-- The word ルス in katakana (ル U+30EB, ス U+30B9), a rank-1 noun whose
kana is not in the primary syllabary. -/
def rusuKata : GameWord := ⟨[], [0x30EB, 0x30B9], 1, true⟩

/-- A vocabulary word whose kana is the single forbidden character ん. -/
def onlyN : GameWord := ⟨[], [0x3093], 1, true⟩

/-- The state just after construction over the vocabulary [さる], with さる
as the initial word. -/
def stSaru : GameState := ⟨buildIndex [saru] 1, [saru], 0⟩

/-- The state just after construction over the vocabulary [さる, るす],
with さる as the initial word. -/
def stSaruRusu : GameState := ⟨buildIndex [saru, rusu] 1, [saru], 0⟩

/-- The state reached from stSaruRusu by successfully submitting るす. -/
def stSaruRusu2 : GameState := ⟨buildIndex [saru, rusu] 1, [saru, rusu], 1⟩

/-- The state just after construction over the vocabulary [さる, ルス],
with さる as the initial word. -/
def stSaruKata : GameState := ⟨buildIndex [saru, rusuKata] 1, [saru], 0⟩

/-- The state reached from stSaruKata by successfully submitting るす,
appending the katakana-kana word ルス to the chain. -/
def stSaruKata2 : GameState := ⟨buildIndex [saru, rusuKata] 1, [saru, rusuKata], 1⟩

/-! Helper lemmas about the string primitives and normalization. -/

theorem strStartsWith_single (l : List ℕ) (m : ℕ) :
    strStartsWith l [m] = decide (l.head? = some m) := by
  cases l with
  | nil => simp [strStartsWith]
  | cons c cs => simp [strStartsWith]

theorem strEndsWith_single (l : List ℕ) (m : ℕ) :
    strEndsWith l [m] = decide (l.getLast? = some m) := by
  unfold strEndsWith
  rw [show ([m] : List ℕ).reverse = [m] from rfl, strStartsWith_single,
    List.head?_reverse]

theorem kataToHiraChar_eq (c : ℕ) :
    kataToHiraChar c =
      if 0x30A0 ≤ c ∧ c ≤ 0x30F3 then 0x3041 + c - 0x30A1 else c := by
  simp only [kataToHiraChar, is_katakana, List.all_cons, List.all_nil,
    Bool.and_true, Bool.and_eq_true, decide_eq_true_eq]
  by_cases h1 : 0x30A0 ≤ c <;> by_cases h2 : c ≤ 0x30FF <;>
      by_cases h3 : c ≤ 0x30F3 <;> simp [h1, h2, h3]
  omega

theorem kataToHiraChar_idem (c : ℕ) :
    kataToHiraChar (kataToHiraChar c) = kataToHiraChar c := by
  rw [kataToHiraChar_eq c]
  split
  · rw [kataToHiraChar_eq, if_neg]
    omega
  · rw [kataToHiraChar_eq, if_neg]
    assumption

theorem katakana_to_hiragana_idem (t : List ℕ) :
    katakana_to_hiragana (katakana_to_hiragana t) = katakana_to_hiragana t := by
  unfold katakana_to_hiragana
  rw [List.map_map]
  exact List.map_congr_left (fun c _ => kataToHiraChar_idem c)

theorem katakana_to_hiragana_eq_nil (t : List ℕ) :
    katakana_to_hiragana t = [] ↔ t = [] := by
  unfold katakana_to_hiragana
  simp

theorem takeFiltered_eq (p : α → Bool) (n : ℕ) (l : List α) :
    takeFiltered p n l = (l.filter p).take n := by
  induction l generalizing n with
  | nil => cases n <;> simp [takeFiltered]
  | cons x xs ih =>
    cases n with
    | zero => simp [takeFiltered]
    | succ k =>
      by_cases hx : p x <;> simp [takeFiltered, hx, List.filter_cons, ih]

theorem mem_takeFiltered {p : α → Bool} {n : ℕ} {l : List α} {x : α}
    (h : x ∈ takeFiltered p n l) : x ∈ l ∧ p x = true := by
  rw [takeFiltered_eq] at h
  have hf := List.mem_of_mem_take h
  exact ⟨(List.mem_filter.mp hf).1, (List.mem_filter.mp hf).2⟩

/-! Helper lemmas about the dict model and the built index. -/

theorem dictLookup_mem {d : Dict} {k : List ℕ} {w : GameWord}
    (h : dictLookup d k = some w) : (k, w) ∈ d := by
  unfold dictLookup at h
  cases hf : d.find? (fun p => decide (p.1 = k)) with
  | none => rw [hf] at h; simp at h
  | some p =>
    rw [hf] at h
    simp only [Option.map_some', Option.some.injEq] at h
    have hp := List.find?_some hf
    have hmem := List.mem_of_find?_eq_some hf
    simp only [decide_eq_true_eq] at hp
    have hpe : p = (k, w) := by
      cases p
      simp_all
    rwa [hpe] at hmem

theorem dictInsert_forall {P : List ℕ × GameWord → Prop} {d : Dict}
    {k : List ℕ} {v : GameWord}
    (hd : ∀ p ∈ d, P p) (hkv : P (k, v)) : ∀ p ∈ dictInsert d k v, P p := by
  unfold dictInsert
  split
  · intro p hp
    obtain ⟨q, hq, rfl⟩ := List.mem_map.mp hp
    split
    · exact hkv
    · exact hd q hq
  · intro p hp
    rcases List.mem_append.mp hp with h | h
    · exact hd p h
    · simp only [List.mem_singleton] at h
      rw [h]
      exact hkv

theorem buildIndex_forall {P : List ℕ × GameWord → Prop}
    (hP : ∀ w : GameWord, P (katakana_to_hiragana w.kana, w)) :
    ∀ (words : List GameWord) (mr : ℤ), ∀ p ∈ buildIndex words mr, P p := by
  have aux : ∀ (words : List GameWord) (mr : ℤ) (d : Dict),
      (∀ p ∈ d, P p) →
      ∀ p ∈ words.foldl
        (fun d w =>
          if w.rank ≤ mr then dictInsert d (katakana_to_hiragana w.kana) w else d)
        d, P p := by
    intro words
    induction words with
    | nil => intro mr d hd; simpa using hd
    | cons w ws ih =>
      intro mr d hd
      simp only [List.foldl_cons]
      apply ih
      split
      · exact dictInsert_forall hd (hP w)
      · exact hd
  intro words mr
  exact aux words mr [] (by simp)

theorem buildIndex_wf (words : List GameWord) (mr : ℤ) :
    IndexWF (buildIndex words mr) :=
  fun k w hm =>
    @buildIndex_forall (fun p => p.1 = katakana_to_hiragana p.2.kana)
      (fun _ => rfl) words mr (k, w) hm

/-! Inversion and characterization lemmas for validate and send_word. -/

theorem validate_none_inv {st : GameState} {t : List ℕ}
    (h : validate st t = none) :
    ∃ m, requiredMora st = some m ∧ t.head? = some m ∧
      ∃ w, dictLookup st.known_words t = some w ∧ w ∉ st.seen_words ∧
        w.is_noun = true ∧ strEndsWith t [0x3093] = false := by
  unfold validate at h
  split at h
  · exact absurd h (by simp)
  · rename_i m hm
    split at h
    · exact absurd h (by simp)
    · rename_i c hc
      split at h
      · exact absurd h (by simp)
      · rename_i hcm
        push_neg at hcm
        subst hcm
        split at h
        · exact absurd h (by simp)
        · rename_i w hw
          split at h
          · exact absurd h (by simp)
          · rename_i hseen
            split at h
            · exact absurd h (by simp)
            · rename_i hnoun
              split at h
              · exact absurd h (by simp)
              · rename_i hend
                exact ⟨c, hm, hc, w, hw, hseen,
                  by simpa using hnoun, by simpa using hend⟩

theorem validate_eq_spec {st : GameState} {t : List ℕ} {m : ℕ}
    (hm : requiredMora st = some m) (hne : t ≠ []) :
    validate st t = specFirstViolation st t := by
  obtain ⟨c, ts, rfl⟩ : ∃ c ts, t = c :: ts :=
    match t, hne with
    | c :: ts, _ => ⟨c, ts, rfl⟩
  unfold validate specFirstViolation continuityViol knownViol repeatViol
    posViol terminalViol
  rw [hm]
  simp only [List.head?_cons]
  by_cases hcm : c = m
  · subst hcm
    simp only [ne_eq, Option.some.injEq, not_true_eq_false, decide_False,
      Bool.false_eq_true, if_false, if_neg]
    cases hw : dictLookup st.known_words (c :: ts) with
    | none => simp
    | some w =>
      simp only [Option.some.injEq, decide_False, reduceCtorEq, decide_eq_true_eq]
      by_cases hseen : w ∈ st.seen_words
      · simp [hseen]
      · simp only [hseen, decide_False, Bool.false_eq_true, if_false]
        by_cases hnoun : w.is_noun = false
        · simp [hnoun]
        · have hnoun' : w.is_noun = true := by simpa using hnoun
          simp only [hnoun', if_neg, Bool.not_true, Bool.false_eq_true, if_false]
          rw [strEndsWith_single]
          by_cases hend : (c :: ts).getLast? = some 0x3093
          · simp [hend]
          · simp [hend]
  · simp [hcm]

theorem send_word_ok_inv {st : GameState} {text : List ℕ} {w : GameWord}
    {st' : GameState} (h : send_word st text = (.ok w, st')) :
    validate st (katakana_to_hiragana text) = none ∧
    dictLookup st.known_words (katakana_to_hiragana text) = some w ∧
    st' = ⟨st.known_words, st.seen_words ++ [w], st.player_score + 1⟩ := by
  unfold send_word at h
  split at h
  · simp [Prod.ext_iff] at h
  · rename_i hv
    split at h
    · simp [Prod.ext_iff] at h
    · rename_i w' hw
      simp only [Prod.mk.injEq, Except.ok.injEq] at h
      obtain ⟨hww, hst⟩ := h
      subst hww
      exact ⟨hv, hw, hst.symm⟩

theorem send_word_cases (st : GameState) (text : List ℕ) :
    (∃ e, (send_word st text).1 = Except.error e ∧ (send_word st text).2 = st) ∨
    (∃ w, (send_word st text).1 = Except.ok w ∧
      (send_word st text).2 =
        ⟨st.known_words, st.seen_words ++ [w], st.player_score + 1⟩) := by
  unfold send_word
  split
  · rename_i e _
    exact Or.inl ⟨e, rfl, rfl⟩
  · split
    · exact Or.inl ⟨.keyError, rfl, rfl⟩
    · rename_i w _
      exact Or.inr ⟨w, rfl, rfl⟩

theorem send_word_err_eq {st : GameState} {text : List ℕ} {m : ℕ}
    (hm : requiredMora st = some m) (hne : text ≠ []) :
    errOf (send_word st text).1 =
      specFirstViolation st (katakana_to_hiragana text) := by
  have hne' : katakana_to_hiragana text ≠ [] := by
    rw [ne_eq, katakana_to_hiragana_eq_nil]
    exact hne
  unfold send_word
  rw [validate_eq_spec hm hne']
  cases hv : specFirstViolation st (katakana_to_hiragana text) with
  | some e => simp [errOf]
  | none =>
    have hl : dictLookup st.known_words (katakana_to_hiragana text) ≠ none := by
      intro hnone
      unfold specFirstViolation knownViol at hv
      rw [hnone] at hv
      simp at hv
      split at hv <;> simp_all
    cases hw : dictLookup st.known_words (katakana_to_hiragana text) with
    | none => exact absurd hw hl
    | some w => simp [errOf]

theorem requiredMora_inv {st : GameState} {m : ℕ}
    (hm : requiredMora st = some m) :
    ∃ prev c, st.seen_words.getLast? = some prev ∧
      prev.kana.getLast? = some c ∧ m = translateSmallToBig c := by
  unfold requiredMora at hm
  split at hm
  · exact absurd hm (by simp)
  · rename_i prev hprev
    split at hm
    · exact absurd hm (by simp)
    · rename_i c hc
      exact ⟨prev, c, hprev, hc, (Option.some.inj hm).symm⟩

theorem next_word_single (pick : ℕ) (st : GameState) (w : GameWord)
    (h : st.seen_words = [w]) : next_word pick st = (.ok w, st) := by
  have hh : st.seen_words.head? = some w := by rw [h]; rfl
  unfold next_word
  rw [if_pos (by rw [h]; rfl), hh]

theorem next_word_multi {st : GameState} {m : ℕ}
    (hm : requiredMora st = some m) (hlen : st.seen_words.length ≠ 1)
    (pick : ℕ) :
    next_word pick st =
      match (nextCandidates st m)[pick % (nextCandidates st m).length]? with
      | some w => (.ok w, ⟨st.known_words, st.seen_words ++ [w], st.player_score⟩)
      | none => (.error .noCandidate, st) := by
  unfold next_word
  rw [if_neg hlen, hm]

theorem candidatePred_eq_spec (st : GameState) (m : ℕ) (w : GameWord) :
    candidatePred st m w = specCandidatePred st m w := by
  unfold candidatePred specCandidatePred
  rw [strStartsWith_single, strEndsWith_single]
  simp [decide_not]

theorem nextCandidates_eq_spec (st : GameState) (m : ℕ) :
    nextCandidates st m = specCandidates st m := by
  unfold nextCandidates specCandidates
  rw [takeFiltered_eq]
  have hp : candidatePred st m = specCandidatePred st m :=
    funext (candidatePred_eq_spec st m)
  rw [hp]

theorem next_word_ok_inv {pick : ℕ} {st : GameState} {w : GameWord}
    {st' : GameState} (h : next_word pick st = (.ok w, st')) :
    (st' = st ∧ st.seen_words.head? = some w) ∨
    (∃ m, requiredMora st = some m ∧ w ∈ nextCandidates st m ∧
      st' = ⟨st.known_words, st.seen_words ++ [w], st.player_score⟩) := by
  unfold next_word at h
  split at h
  · split at h
    · rename_i w' hw'
      simp only [Prod.mk.injEq, Except.ok.injEq] at h
      obtain ⟨hww, hst⟩ := h
      subst hww
      exact Or.inl ⟨hst.symm, hw'⟩
    · simp [Prod.ext_iff] at h
  · split at h
    · simp [Prod.ext_iff] at h
    · rename_i m hm
      split at h
      · rename_i w' hw'
        simp only [Prod.mk.injEq, Except.ok.injEq] at h
        obtain ⟨hww, hst⟩ := h
        subst hww
        refine Or.inr ⟨m, hm, ?_, hst.symm⟩
        obtain ⟨hlt, hget⟩ := List.getElem?_eq_some_iff.mp hw'
        rw [← hget]
        exact List.getElem_mem hlt
      · simp [Prod.ext_iff] at h

theorem mem_nextCandidates {st : GameState} {m : ℕ} {w : GameWord}
    (h : w ∈ nextCandidates st m) :
    w.kana.head? = some m ∧ w ∉ st.seen_words ∧ w.is_noun = true ∧
      w.kana.getLast? ≠ some 0x3093 := by
  have hp := (mem_takeFiltered h).2
  rw [candidatePred_eq_spec] at hp
  unfold specCandidatePred at hp
  simp only [Bool.and_eq_true, decide_eq_true_eq] at hp
  exact ⟨hp.1.1.1, hp.1.1.2, hp.1.2, hp.2⟩

/-! Invariants of all reachable states. -/

theorem reachable_invariants {st : GameState} (h : Reachable st) :
    IndexWF st.known_words ∧ st.seen_words ≠ [] ∧
      (∀ w ∈ st.seen_words, w.kana ≠ []) ∧ st.seen_words.Nodup := by
  induction h with
  | init words mr k w hk hnoun hlast =>
    refine ⟨buildIndex_wf words mr, by simp, ?_, by simp⟩
    intro w' hw'
    simp only [List.mem_singleton] at hw'
    subst hw'
    obtain ⟨c, hc, _⟩ := hlast
    intro hnil
    rw [hnil] at hc
    simp at hc
  | sendStep st text w st' hr hs ih =>
    obtain ⟨hwf, hne, hkan, hnd⟩ := ih
    obtain ⟨hv, hw, hst'⟩ := send_word_ok_inv hs
    obtain ⟨m, hm, hhead, w', hw', hseen, hnoun', hend⟩ := validate_none_inv hv
    have hww : w' = w := by
      rw [hw] at hw'
      exact Option.some.inj hw'.symm
    subst hww
    have htne : katakana_to_hiragana text ≠ [] := by
      intro hnil
      rw [hnil] at hhead
      simp at hhead
    have hkana : w'.kana ≠ [] := by
      have hmem := dictLookup_mem hw
      have hkey := hwf _ _ hmem
      intro hnil
      rw [hnil] at hkey
      exact htne (by rw [hkey]; rfl)
    subst hst'
    refine ⟨hwf, by simp, ?_, ?_⟩
    · intro a ha
      rcases List.mem_append.mp ha with ha | ha
      · exact hkan a ha
      · simp only [List.mem_singleton] at ha
        subst ha
        exact hkana
    · rw [List.nodup_append]
      refine ⟨hnd, by simp, ?_⟩
      intro a ha hb
      simp only [List.mem_singleton] at hb
      subst hb
      exact hseen ha
  | nextStep st pick w st' hr hn ih =>
    obtain ⟨hwf, hne, hkan, hnd⟩ := ih
    rcases next_word_ok_inv hn with ⟨hst, _⟩ | ⟨m, hm, hmem, hst⟩
    · subst hst
      exact ⟨hwf, hne, hkan, hnd⟩
    · obtain ⟨hhead, hseen, _, _⟩ := mem_nextCandidates hmem
      have hkana : w.kana ≠ [] := by
        intro hnil
        rw [hnil] at hhead
        simp at hhead
      subst hst
      refine ⟨hwf, by simp, ?_, ?_⟩
      · intro a ha
        rcases List.mem_append.mp ha with ha | ha
        · exact hkan a ha
        · simp only [List.mem_singleton] at ha
          subst ha
          exact hkana
      · rw [List.nodup_append]
        refine ⟨hnd, by simp, ?_⟩
        intro a ha hb
        simp only [List.mem_singleton] at hb
        subst hb
        exact hseen ha

theorem reachable_mora_some {st : GameState} (h : Reachable st) :
    ∃ m, requiredMora st = some m := by
  obtain ⟨_, hne, hkan, _⟩ := reachable_invariants h
  obtain ⟨prev, hprev⟩ : ∃ prev, st.seen_words.getLast? = some prev := by
    cases hl : st.seen_words.getLast? with
    | none => exact absurd (List.getLast?_eq_none_iff.mp hl) hne
    | some prev => exact ⟨prev, rfl⟩
  have hprevmem : prev ∈ st.seen_words := List.mem_of_mem_getLast? hprev
  obtain ⟨c, hc⟩ : ∃ c, prev.kana.getLast? = some c := by
    cases hl : prev.kana.getLast? with
    | none => exact absurd (List.getLast?_eq_none_iff.mp hl) (hkan prev hprevmem)
    | some c => exact ⟨c, rfl⟩
  refine ⟨translateSmallToBig c, ?_⟩
  simp [requiredMora, hprev, hc]

theorem reachable_chain : ∀ st : GameState, Reachable st →
    HiraVocab st.known_words → List.Chain' adjacentOK st.seen_words := by
  intro st h
  induction h with
  | init words mr k w hk hnoun hlast =>
    intro _
    simp
  | sendStep st text w st' hr hs ih =>
    intro hh
    obtain ⟨hwf, _, _, _⟩ := reachable_invariants hr
    obtain ⟨hv, hw, hst'⟩ := send_word_ok_inv hs
    obtain ⟨m, hm, hhead, w', hw', hseen, _, _⟩ := validate_none_inv hv
    have hww : w' = w := by
      rw [hw] at hw'
      exact Option.some.inj hw'.symm
    subst hww
    have hhst : HiraVocab st.known_words := by
      rw [hst'] at hh
      exact hh
    have hmem := dictLookup_mem hw
    have hkey : katakana_to_hiragana text = katakana_to_hiragana w'.kana :=
      hwf _ _ hmem
    have hfix : katakana_to_hiragana w'.kana = w'.kana := hhst _ hmem
    have hkhead : w'.kana.head? = some m := by
      rw [← hfix, ← hkey]
      exact hhead
    obtain ⟨prev, c, hprev, hc, hmc⟩ := requiredMora_inv hm
    subst hst'
    simp only
    rw [List.chain'_append]
    refine ⟨ih hhst, by simp, ?_⟩
    intro x hx y hy
    rw [hprev] at hx
    simp only [Option.mem_def, Option.some.injEq] at hx
    subst hx
    simp only [List.head?_cons, Option.mem_def, Option.some.injEq] at hy
    subst hy
    unfold adjacentOK
    rw [hkhead, hc, Option.map_some', hmc]
  | nextStep st pick w st' hr hn ih =>
    intro hh
    rcases next_word_ok_inv hn with ⟨hst, _⟩ | ⟨m, hm, hmem, hst⟩
    · subst hst
      exact ih hh
    · obtain ⟨hkhead, _, _, _⟩ := mem_nextCandidates hmem
      obtain ⟨prev, c, hprev, hc, hmc⟩ := requiredMora_inv hm
      have hhst : HiraVocab st.known_words := by
        rw [hst] at hh
        exact hh
      subst hst
      simp only
      rw [List.chain'_append]
      refine ⟨ih hhst, by simp, ?_⟩
      intro x hx y hy
      rw [hprev] at hx
      simp only [Option.mem_def, Option.some.injEq] at hx
      subst hx
      simp only [List.head?_cons, Option.mem_def, Option.some.injEq] at hy
      subst hy
      unfold adjacentOK
      rw [hkhead, hc, Option.map_some', hmc]

/-! Concrete reachable states. -/

theorem reachable_stSaru : Reachable stSaru :=
  Reachable.init [saru] 1 [0x3055, 0x308B] saru (by decide) rfl
    ⟨0x308B, by decide, by decide⟩

theorem reachable_stSaruRusu : Reachable stSaruRusu :=
  Reachable.init [saru, rusu] 1 [0x3055, 0x308B] saru (by decide) rfl
    ⟨0x308B, by decide, by decide⟩

theorem reachable_stSaruRusu2 : Reachable stSaruRusu2 :=
  Reachable.sendStep stSaruRusu [0x308B, 0x3059] rusu stSaruRusu2
    reachable_stSaruRusu (by decide)

theorem reachable_stSaruKata : Reachable stSaruKata :=
  Reachable.init [saru, rusuKata] 1 [0x3055, 0x308B] saru (by decide) rfl
    ⟨0x308B, by decide, by decide⟩

theorem reachable_stSaruKata2 : Reachable stSaruKata2 :=
  Reachable.sendStep stSaruKata [0x308B, 0x3059] rusuKata stSaruKata2
    reachable_stSaruKata (by decide)

/-! Characterization of the construction loop. -/

theorem initLoop_isSome_iff (kw : Dict) (s : ℕ → ℕ) :
    ∀ (fuel i : ℕ), (initLoop kw s i fuel).isSome ↔
      ∃ n, n < fuel ∧ (initStep kw (s (i + n))).isSome := by
  intro fuel
  induction fuel with
  | zero =>
    intro i
    simp [initLoop]
  | succ fuel ih =>
    intro i
    constructor
    · intro h
      unfold initLoop at h
      split at h
      · rename_i r hr
        exact ⟨0, by omega, by rw [Nat.add_zero, hr]; rfl⟩
      · obtain ⟨n, hn, hs⟩ := (ih (i + 1)).mp h
        refine ⟨n + 1, by omega, ?_⟩
        have : i + 1 + n = i + (n + 1) := by omega
        rwa [this] at hs
    · rintro ⟨n, hn, hs⟩
      unfold initLoop
      split
      · rfl
      · rename_i hr
        cases n with
        | zero =>
          rw [Nat.add_zero] at hs
          rw [hr] at hs
          simp at hs
        | succ n' =>
          apply (ih (i + 1)).mpr
          refine ⟨n', by omega, ?_⟩
          have : i + 1 + n' = i + (n' + 1) := by omega
          rwa [this]

/-! Claim theorems. -/

/-- C1, counterexample to the claim as stated: in the reachable state
stSaru the empty submission violates the continuity rule (its first
character cannot equal the required unit), yet send_word raises the
untyped IndexError of the text[0] access, which is neither an
InvalidWordException (the claimed InvalidMoveError) nor an
UnknownWordException. -/
theorem claim1_counterexample :
    Reachable stSaru ∧
    continuityViol stSaru (katakana_to_hiragana []) = true ∧
    (send_word stSaru []).1 = Except.error GameError.indexError ∧
    isInvalidWordException GameError.indexError = false ∧
    isUnknownWordException GameError.indexError = false :=
  ⟨reachable_stSaru, by decide, by decide, by decide, by decide⟩

/-- C1 (amended to non-empty input): in every reachable state, for every
non-empty input text, send_word raises exactly the error of the first rule,
in the order continuity, known word, no repeat, noun, terminal-unit ban,
that the normalized text violates, and raises no error when no rule is
violated. -/
theorem claim1_theorem (st : GameState) (h : Reachable st) (text : List ℕ)
    (hne : text ≠ []) (e : GameError) :
    (send_word st text).1 = Except.error e ↔
      specFirstViolation st (katakana_to_hiragana text) = some e := by
  obtain ⟨m, hm⟩ := reachable_mora_some h
  have herr := send_word_err_eq hm hne
  constructor
  · intro he
    rw [he] at herr
    simp only [errOf] at herr
    exact herr.symm
  · intro hs
    cases hres : (send_word st text).1 with
    | error e' =>
      rw [hres] at herr
      simp only [errOf] at herr
      rw [Option.some.inj (herr.trans hs)]
    | ok w =>
      rw [hres] at herr
      simp only [errOf] at herr
      rw [← herr] at hs
      simp at hs

/-- C1 witness: in stSaru, submitting るす passes continuity but is not in
the vocabulary, and send_word raises exactly the unknown-word error. -/
theorem claim1_witness :
    (send_word stSaru [0x308B, 0x3059]).1 = Except.error GameError.unknownWord :=
  (claim1_theorem stSaru reachable_stSaru [0x308B, 0x3059] (by decide)
    GameError.unknownWord).mpr (by decide)

/-- C2 (confirmed): in every reachable state, next_word returns the single
chain entry unchanged when the chain has exactly one entry; otherwise it
draws from the first 10 vocabulary entries satisfying the spec candidate
condition: it concedes with noCandidate exactly when that sample is empty,
returns the picked candidate with the chain extended otherwise, and every
candidate of the sample is returned for some pick. -/
theorem claim2_theorem (st : GameState) (h : Reachable st) (pick : ℕ) :
    (st.seen_words.length = 1 →
      ∃ w, st.seen_words = [w] ∧ next_word pick st = (Except.ok w, st)) ∧
    (st.seen_words.length ≠ 1 →
      ∃ m, requiredMora st = some m ∧
        (specCandidates st m = [] →
          next_word pick st = (Except.error GameError.noCandidate, st)) ∧
        (∀ w, (specCandidates st m)[pick % (specCandidates st m).length]? = some w →
          next_word pick st =
            (Except.ok w, ⟨st.known_words, st.seen_words ++ [w], st.player_score⟩)) ∧
        (∀ w ∈ specCandidates st m, ∃ q, next_word q st =
          (Except.ok w, ⟨st.known_words, st.seen_words ++ [w], st.player_score⟩))) := by
  constructor
  · intro hlen
    obtain ⟨w, hw⟩ := List.length_eq_one.mp hlen
    exact ⟨w, hw, next_word_single pick st w hw⟩
  · intro hlen
    obtain ⟨m, hm⟩ := reachable_mora_some h
    have hcand := nextCandidates_eq_spec st m
    refine ⟨m, hm, ?_, ?_, ?_⟩
    · intro hnil
      rw [next_word_multi hm hlen pick, hcand, hnil]
      simp
    · intro w hw
      rw [next_word_multi hm hlen pick, hcand, hw]
    · intro w hwmem
      obtain ⟨i, hi, hget⟩ := List.mem_iff_getElem.mp hwmem
      refine ⟨i, ?_⟩
      have hsome : (specCandidates st m)[i % (specCandidates st m).length]? = some w := by
        rw [Nat.mod_eq_of_lt hi]
        rw [List.getElem?_eq_getElem hi, hget]
      rw [next_word_multi hm hlen i, hcand, hsome]

/-- C2 witness: in stSaru the chain has exactly one entry, and next_word
returns it unchanged. -/
theorem claim2_witness : next_word 0 stSaru = (Except.ok saru, stSaru) := by
  obtain ⟨h1, _⟩ := claim2_theorem stSaru reachable_stSaru 0
  obtain ⟨w, hw, he⟩ := h1 (by decide)
  have hws : saru = w := by
    have hseen : stSaru.seen_words = [saru] := rfl
    rw [hseen] at hw
    simpa using hw
  rw [hws]
  exact he

/-- C3, counterexample to the claim as stated: the state stSaruKata2 is
reachable (submit るす over the vocabulary [さる, ルス], whose second word
has a katakana phonetic form), and its chain [さる, ルス] violates the
continuity invariant, because the stored phonetic form ルス begins with the
katakana ル while the required unit is the hiragana る. -/
theorem claim3_counterexample :
    Reachable stSaruKata2 ∧ ¬ List.Chain' adjacentOK stSaruKata2.seen_words := by
  refine ⟨reachable_stSaruKata2, ?_⟩
  intro hch
  have hseen : stSaruKata2.seen_words = [saru, rusuKata] := rfl
  rw [hseen] at hch
  exact absurd (List.chain'_cons.mp hch).1 (by decide)

/-- C3 (amended with the premise that the vocabulary index holds only
phonetic forms fixed by normalization, i.e. already in the primary
syllabary): in every reachable state the played chain satisfies the
continuity invariant on adjacent pairs. -/
theorem claim3_theorem (st : GameState) (h : Reachable st)
    (hh : HiraVocab st.known_words) : List.Chain' adjacentOK st.seen_words :=
  reachable_chain st h hh

/-- C3 witness: the reachable two-word chain [さる, るす] over the
all-hiragana vocabulary [さる, るす] satisfies the continuity invariant. -/
theorem claim3_witness : List.Chain' adjacentOK stSaruRusu2.seen_words :=
  claim3_theorem stSaruRusu2 reachable_stSaruRusu2 (by decide)

/-- C4 (confirmed): in every reachable state, no word value appears twice
in the played chain. -/
theorem claim4_theorem (st : GameState) (h : Reachable st) :
    st.seen_words.Nodup :=
  (reachable_invariants h).2.2.2

/-- C4 witness: the reachable chain [さる, るす] has no duplicates. -/
theorem claim4_witness : stSaruRusu2.seen_words.Nodup :=
  claim4_theorem stSaruRusu2 reachable_stSaruRusu2

/-- C5 (confirmed): send_word either succeeds, returning a word and the
state with the score incremented by exactly one, that word appended to the
chain, and the index unchanged, or fails with an error and leaves the state
entirely unchanged. -/
theorem claim5_theorem (st : GameState) (text : List ℕ) :
    (∃ w, (send_word st text).1 = Except.ok w ∧
      (send_word st text).2.player_score = st.player_score + 1 ∧
      (send_word st text).2.seen_words = st.seen_words ++ [w] ∧
      (send_word st text).2.known_words = st.known_words) ∨
    ((∃ e, (send_word st text).1 = Except.error e) ∧
      (send_word st text).2 = st) := by
  rcases send_word_cases st text with ⟨e, he, hst⟩ | ⟨w, hw, hst⟩
  · exact Or.inr ⟨⟨e, he⟩, hst⟩
  · refine Or.inl ⟨w, hw, ?_, ?_, ?_⟩ <;> rw [hst]

/-- C6, counterexample to the claim as stated: the vocabulary consisting of
the single noun ん is non-empty, yet the initial-word selection loop of
construction (with the default resolved max rank) never terminates, for the
sampling oracle that always picks the first key. -/
theorem claim6_counterexample :
    ([onlyN] : List GameWord) ≠ [] ∧
    ¬ initLoopHalts (buildIndex [onlyN] (resolveMaxRank [onlyN] none))
      (fun _ => 0) := by
  refine ⟨by simp, ?_⟩
  have hmr : resolveMaxRank [onlyN] none = 1 := rfl
  rw [hmr]
  rintro ⟨fuel, hf⟩
  have hloop : ∀ (n i : ℕ), initLoop (buildIndex [onlyN] 1) (fun _ => 0) i n = none := by
    intro n
    induction n with
    | zero => intro i; rfl
    | succ n ih =>
      intro i
      have h0 : initStep (buildIndex [onlyN] 1) 0 = none := by decide
      simp only [initLoop, h0]
      exact ih (i + 1)
  rw [hloop fuel 0] at hf
  simp at hf

/-- C6 (amended): the initial-word selection loop halts for a sampling
oracle exactly when some iteration samples an entry that stops it (a noun
not ending in ん, or an entry triggering an index or key failure);
termination is therefore not guaranteed for every non-empty vocabulary. -/
theorem claim6_theorem (kw : Dict) (s : ℕ → ℕ) :
    initLoopHalts kw s ↔ ∃ n, (initStep kw (s n)).isSome := by
  constructor
  · rintro ⟨fuel, h⟩
    obtain ⟨n, _, hs⟩ := (initLoop_isSome_iff kw s fuel 0).mp h
    rw [Nat.zero_add] at hs
    exact ⟨n, hs⟩
  · rintro ⟨n, hs⟩
    refine ⟨n + 1, (initLoop_isSome_iff kw s (n + 1) 0).mpr ⟨n, by omega, ?_⟩⟩
    rwa [Nat.zero_add]

/-- C6 witness: over the vocabulary [さる] the loop halts at once for the
constant-zero oracle, since さる is a noun not ending in ん. -/
theorem claim6_witness :
    initLoopHalts (buildIndex [saru] 1) (fun _ => 0) :=
  (claim6_theorem (buildIndex [saru] 1) (fun _ => 0)).mpr ⟨0, by decide⟩

/-- C7, counterexample to the claim as stated: the katakana-hiragana double
hyphen U+30A0 is punctuation outside the phonetically analogous a-through-n
subset, yet the normalizer changes it (to the unassigned code point
U+3040). -/
theorem claim7_counterexample :
    ¬ aThroughN 0x30A0 ∧ katakana_to_hiragana [0x30A0] ≠ [0x30A0] := by
  constructor
  · intro hin
    exact absurd hin.1 (by decide)
  · decide

/-- C7 (amended): the normalizer maps every character with code point in
the closed range U+30A0 (double hyphen) to U+30F3 (katakana ン) down by the
fixed offset, and leaves every character outside that range unchanged. -/
theorem claim7_theorem (text : List ℕ) :
    katakana_to_hiragana text =
      text.map (fun c =>
        if 0x30A0 ≤ c ∧ c ≤ 0x30F3 then 0x3041 + c - 0x30A1 else c) := by
  unfold katakana_to_hiragana
  exact List.map_congr_left (fun c _ => kataToHiraChar_eq c)

/-- C8 (confirmed): the script normalizer is idempotent on every string. -/
theorem claim8_theorem (x : List ℕ) :
    katakana_to_hiragana (katakana_to_hiragana x) = katakana_to_hiragana x :=
  katakana_to_hiragana_idem x

/-- C9 (confirmed): submitting a spelling k that normalizes to the
syllabary-A form a gives exactly the same outcome, returned value and
resulting state alike, as submitting a itself, in every state. -/
theorem claim9_theorem (st : GameState) (k a : List ℕ)
    (h : katakana_to_hiragana k = a) :
    send_word st k = send_word st a := by
  subst h
  unfold send_word
  rw [katakana_to_hiragana_idem]

/-- C9 witness: submitting the katakana spelling サル in stSaru gives the
same outcome as submitting the hiragana spelling さる. -/
theorem claim9_witness :
    send_word stSaru [0x30B5, 0x30EB] = send_word stSaru [0x3055, 0x308B] :=
  claim9_theorem stSaru [0x30B5, 0x30EB] [0x3055, 0x308B] (by decide)

/-- C10 (confirmed): submitting the empty string in any state never returns
a word: the continuity access raises IndexError, and the state, chain and
score included, is unchanged. -/
theorem claim10_theorem (st : GameState) :
    (send_word st []).1 = Except.error GameError.indexError ∧
    (send_word st []).2 = st := by
  have hv : validate st (katakana_to_hiragana []) = some GameError.indexError := by
    unfold validate
    split
    · rfl
    · rfl
  unfold send_word
  rw [hv]
  exact ⟨rfl, rfl⟩

end Shiritori
